import Mathlib

/-!
Verification of the Dogwalker task orchestrator.

The definitions below are a shallow embedding of the Python sources under
`apps/orchestrator` and `apps/worker`.  The shared Redis coordination store
is modelled as a map from structured keys to values; the key constructors
correspond one to one to the f-string key layouts used in the sources
(`dogwalker:active_tasks:{dog}`, `dogwalker:cancel:{task_id}`,
`dogwalker:thread_tasks:{thread_ts}`, `dogwalker:thread_messages:{thread_ts}`).
Monetary amounts (Python floats) are modelled as rationals.
-/

namespace Dogwalker

/-- Structured coordination-store keys.  Each constructor corresponds to one
of the `dogwalker:`-namespaced f-string key families found in the sources. -/
inductive Key
  | activeTasks (dogName : String)
  | cancelFlag (taskId : String)
  | threadTask (threadTs : String)
  | threadMessages (threadTs : String)
  deriving DecidableEq, Repr

/-- Redis value types used by the sources: strings, sets, hashes and lists. -/
inductive StoreVal
  | vstr (s : String)
  | vset (elems : List String)
  | vhash (fields : List (String × String))
  | vlist (items : List String)
  deriving DecidableEq, Repr

/-- The coordination store: a flat map from keys to optional values, as in
Redis.  An absent key maps to `none`. -/
def Store : Type := Key → Option StoreVal

/-- The empty store. -/
def emptyStore : Store := fun _ => none

/-- Redis SET / generic key write (overwrites an existing binding). -/
def storeSetVal (st : Store) (k : Key) (v : StoreVal) : Store :=
  fun k' => if k' = k then some v else st k'

/-- Redis DEL. -/
def storeDel (st : Store) (k : Key) : Store :=
  fun k' => if k' = k then none else st k'

/-- Read a key as a set; an absent key is the empty set, as in Redis. -/
def getSet (st : Store) (k : Key) : List String :=
  match st k with
  | some (StoreVal.vset l) => l
  | _ => []

/-- Read a key as a list; an absent key is the empty list, as in Redis. -/
def getList (st : Store) (k : Key) : List String :=
  match st k with
  | some (StoreVal.vlist l) => l
  | _ => []

/-- Redis SADD: add a member to a set key (sets never hold duplicates). -/
def sadd (st : Store) (k : Key) (x : String) : Store :=
  let l := getSet st k
  if x ∈ l then st else storeSetVal st k (StoreVal.vset (l ++ [x]))

/-- Redis SREM: remove a member from a set key.  Returns the new store and
the number of members removed (0 when the member was absent). -/
def sremResult (st : Store) (k : Key) (x : String) : Store × Nat :=
  let l := getSet st k
  if x ∈ l then (storeSetVal st k (StoreVal.vset (l.filter (fun y => y != x))), 1)
  else (st, 0)

/-- Redis RPUSH: append an item to a list key. -/
def rpush (st : Store) (k : Key) (x : String) : Store :=
  storeSetVal st k (StoreVal.vlist (getList st k ++ [x]))

/-- Redis HSET with a mapping: store a whole hash at a key. -/
def hsetMap (st : Store) (k : Key) (fields : List (String × String)) : Store :=
  storeSetVal st k (StoreVal.vhash fields)

theorem storeSetVal_app (st : Store) (k k' : Key) (v : StoreVal) :
    storeSetVal st k v k' = if k' = k then some v else st k' := rfl

theorem storeDel_app (st : Store) (k k' : Key) :
    storeDel st k k' = if k' = k then none else st k' := rfl

theorem getSet_setVal_ne (st : Store) (k k' : Key) (v : StoreVal) (h : k' ≠ k) :
    getSet (storeSetVal st k v) k' = getSet st k' := by
  simp [getSet, storeSetVal_app, h]

theorem getSet_del_ne (st : Store) (k k' : Key) (h : k' ≠ k) :
    getSet (storeDel st k) k' = getSet st k' := by
  simp [getSet, storeDel_app, h]

theorem getList_setVal_ne (st : Store) (k k' : Key) (v : StoreVal) (h : k' ≠ k) :
    getList (storeSetVal st k v) k' = getList st k' := by
  simp [getList, storeSetVal_app, h]

theorem getList_del_ne (st : Store) (k k' : Key) (h : k' ≠ k) :
    getList (storeDel st k) k' = getList st k' := by
  simp [getList, storeDel_app, h]

theorem sadd_app_ne (st : Store) (k k' : Key) (x : String) (h : k' ≠ k) :
    sadd st k x k' = st k' := by
  simp only [sadd]
  split
  · rfl
  · simp [storeSetVal_app, h]

theorem sremResult_app_ne (st : Store) (k k' : Key) (x : String) (h : k' ≠ k) :
    (sremResult st k x).1 k' = st k' := by
  simp only [sremResult]
  split
  · simp [storeSetVal_app, h]
  · rfl

/-! ### Dog selector (`apps/orchestrator/src/dog_selector.py`)

`redisAvailable` models whether `self.redis_client` is non-`None`.  -/

/-- A dog configuration entry, as loaded from the `DOGS` env var. -/
structure DogCfg where
  name : String
  email : String
  deriving DecidableEq, Repr

/-- Embeds `DogSelector.mark_dog_busy` (dog_selector.py lines 98-118):
`SADD dogwalker:active_tasks:{dog_name} task_id`; a no-op when Redis is
unavailable. -/
def mark_dog_busy (redisAvailable : Bool) (st : Store) (dogName taskId : String) :
    Store :=
  if redisAvailable then sadd st (Key.activeTasks dogName) taskId else st

/-- Embeds `DogSelector.mark_dog_free` (dog_selector.py lines 120-145):
`SREM dogwalker:active_tasks:{dog_name} task_id`.  The boolean result is
true exactly when the "Task ... was not in active set" warning is logged,
i.e. when `SREM` removed nothing. -/
def mark_dog_free (redisAvailable : Bool) (st : Store) (dogName taskId : String) :
    Store × Bool :=
  if redisAvailable then
    let r := sremResult st (Key.activeTasks dogName) taskId
    (r.1, r.2 = 0)
  else (st, false)

/-- Embeds `DogSelector.get_active_task_count` (dog_selector.py lines 147-165):
`SCARD` of the dog's active-task set, 0 when Redis is unavailable. -/
def get_active_task_count (redisAvailable : Bool) (st : Store) (dogName : String) :
    Nat :=
  if redisAvailable then (getSet st (Key.activeTasks dogName)).length else 0

/-- Stable insertion into a list of (dog, load) pairs ordered by load.  The
new element is placed before the first element whose load is not smaller,
which reproduces the stability of Python's `list.sort(key=lambda x: x[1])`. -/
def insertByLoad (x : DogCfg × Nat) : List (DogCfg × Nat) → List (DogCfg × Nat)
  | [] => [x]
  | y :: ys => if y.2 < x.2 then y :: insertByLoad x ys else x :: y :: ys

/-- Stable sort of (dog, load) pairs by ascending load, modelling
`dog_loads.sort(key=lambda x: x[1])` (dog_selector.py line 81). -/
def sortByLoad : List (DogCfg × Nat) → List (DogCfg × Nat)
  | [] => []
  | x :: xs => insertByLoad x (sortByLoad xs)

/-- Embeds `DogSelector.select_dog` (dog_selector.py lines 51-96).  `none`
models the `ValueError` raised on an empty roster; the final `else` branch
is the round-robin fallback that returns the first dog. -/
def select_dog (redisAvailable : Bool) (st : Store) (dogs : List DogCfg) :
    Option DogCfg :=
  match dogs with
  | [] => none
  | [d] => some d
  | d₁ :: d₂ :: rest =>
    if redisAvailable then
      Option.map Prod.fst
        (sortByLoad ((d₁ :: d₂ :: rest).map
          (fun d => (d, get_active_task_count true st d.name)))).head?
    else
      some d₁

/-- First argmin of the load over a list of (dog, load) pairs: the earliest
pair whose load is minimal. -/
def firstArgmin : List (DogCfg × Nat) → Option (DogCfg × Nat)
  | [] => none
  | x :: xs =>
    match firstArgmin xs with
    | none => some x
    | some m => if x.2 ≤ m.2 then some x else some m

theorem sortByLoad_eq_nil_iff (l : List (DogCfg × Nat)) :
    sortByLoad l = [] ↔ l = [] := by
  cases l with
  | nil => simp [sortByLoad]
  | cons x xs =>
    simp only [sortByLoad]
    constructor
    · intro h
      cases hs : sortByLoad xs with
      | nil => rw [hs] at h; simp [insertByLoad] at h
      | cons y ys =>
        rw [hs] at h
        simp only [insertByLoad] at h
        by_cases hlt : y.2 < x.2 <;> simp [hlt] at h
    · intro h; exact absurd h (by simp)

theorem head_sortByLoad (l : List (DogCfg × Nat)) :
    (sortByLoad l).head? = firstArgmin l := by
  induction l with
  | nil => rfl
  | cons x xs ih =>
    simp only [sortByLoad, firstArgmin]
    cases hs : sortByLoad xs with
    | nil =>
      have hxs : xs = [] := (sortByLoad_eq_nil_iff xs).mp hs
      subst hxs
      simp [insertByLoad, firstArgmin]
    | cons y ys =>
      rw [hs] at ih
      simp only [List.head?] at ih
      rw [← ih]
      simp only [insertByLoad]
      by_cases hlt : y.2 < x.2
      · simp [hlt, Nat.not_le.mpr hlt]
      · simp [hlt, Nat.le_of_not_lt hlt]

theorem firstArgmin_eq_none_iff (l : List (DogCfg × Nat)) :
    firstArgmin l = none ↔ l = [] := by
  cases l with
  | nil => simp [firstArgmin]
  | cons x xs =>
    simp only [firstArgmin]
    cases firstArgmin xs with
    | none => simp
    | some m => by_cases h : x.2 ≤ m.2 <;> simp [h]

/-- Specialisation of `firstArgmin` to the dog list itself, comparing the
active-task counts of the dogs directly. -/
def firstArgminDogs (count : DogCfg → Nat) : List DogCfg → Option DogCfg
  | [] => none
  | x :: xs =>
    match firstArgminDogs count xs with
    | none => some x
    | some m => if count x ≤ count m then some x else some m

theorem firstArgminDogs_eq_none_iff (count : DogCfg → Nat) (l : List DogCfg) :
    firstArgminDogs count l = none ↔ l = [] := by
  cases l with
  | nil => simp [firstArgminDogs]
  | cons x xs =>
    simp only [firstArgminDogs]
    cases firstArgminDogs count xs with
    | none => simp
    | some m => by_cases h : count x ≤ count m <;> simp [h]

theorem firstArgminDogs_spec (count : DogCfg → Nat) (l : List DogCfg) (m : DogCfg)
    (h : firstArgminDogs count l = some m) :
    ∃ l₁ l₂, l = l₁ ++ m :: l₂ ∧ (∀ y ∈ l, count m ≤ count y) ∧
      (∀ y ∈ l₁, count m < count y) := by
  induction l generalizing m with
  | nil => simp [firstArgminDogs] at h
  | cons x xs ih =>
    simp only [firstArgminDogs] at h
    cases hxs : firstArgminDogs count xs with
    | none =>
      have : xs = [] := (firstArgminDogs_eq_none_iff count xs).mp hxs
      subst this
      simp only [firstArgminDogs, Option.some.injEq] at h
      subst h
      exact ⟨[], [], by simp, by simp, by simp⟩
    | some m' =>
      simp only [hxs] at h
      by_cases hle : count x ≤ count m'
      · rw [if_pos hle] at h
        simp only [Option.some.injEq] at h
        subst h
        refine ⟨[], xs, by simp, ?_, by simp⟩
        intro y hy
        rcases List.mem_cons.mp hy with h1 | h1
        · subst h1; exact Nat.le_refl _
        · obtain ⟨l₁, l₂, _, hmin, _⟩ := ih m' hxs
          exact Nat.le_trans hle (hmin y h1)
      · rw [if_neg hle] at h
        simp only [Option.some.injEq] at h
        subst h
        obtain ⟨l₁, l₂, hdecomp, hmin, hfirst⟩ := ih m' hxs
        refine ⟨x :: l₁, l₂, by simp [hdecomp], ?_, ?_⟩
        · intro y hy
          rcases List.mem_cons.mp hy with h1 | h1
          · subst h1; exact Nat.le_of_lt (Nat.lt_of_not_le hle)
          · exact hmin y h1
        · intro y hy
          rcases List.mem_cons.mp hy with h1 | h1
          · subst h1; exact Nat.lt_of_not_le hle
          · exact hfirst y h1

theorem firstArgmin_map (count : DogCfg → Nat) (l : List DogCfg) :
    firstArgmin (l.map (fun d => (d, count d))) =
      Option.map (fun d => (d, count d)) (firstArgminDogs count l) := by
  induction l with
  | nil => rfl
  | cons x xs ih =>
    simp only [List.map_cons, firstArgmin, firstArgminDogs, ih]
    cases firstArgminDogs count xs with
    | none => rfl
    | some m =>
      simp only [Option.map_some]
      by_cases h : count x ≤ count m <;> simp [h]

theorem firstArgminDogs_isSome (count : DogCfg → Nat) (x : DogCfg) (xs : List DogCfg) :
    ∃ m, firstArgminDogs count (x :: xs) = some m := by
  simp only [firstArgminDogs]
  cases firstArgminDogs count xs with
  | none => exact ⟨x, rfl⟩
  | some m =>
    by_cases h : count x ≤ count m
    · exact ⟨x, by simp [h]⟩
    · exact ⟨m, by simp [h]⟩

/-- C5: with a single-dog roster `select_dog` returns that dog
unconditionally; with a multi-dog roster and Redis available it returns a
dog whose active-task count is minimal over the roster and, among the dogs
tied at the minimum, the one earliest in roster order (every dog listed
before it has a strictly larger count). -/
theorem select_dog_ok (redisAvailable : Bool) (st : Store) (dogs : List DogCfg) :
    (∀ d, dogs = [d] → select_dog redisAvailable st dogs = some d) ∧
    (2 ≤ dogs.length → redisAvailable = true →
      ∃ d l₁ l₂, select_dog redisAvailable st dogs = some d ∧
        dogs = l₁ ++ d :: l₂ ∧
        (∀ e ∈ dogs,
          get_active_task_count true st d.name ≤ get_active_task_count true st e.name) ∧
        (∀ e ∈ l₁,
          get_active_task_count true st d.name < get_active_task_count true st e.name)) := by
  constructor
  · intro d h
    subst h
    rfl
  · intro hlen havail
    subst havail
    match dogs, hlen with
    | d₁ :: d₂ :: rest, _ =>
      obtain ⟨dm, hdm⟩ :=
        firstArgminDogs_isSome (fun d => get_active_task_count true st d.name) d₁ (d₂ :: rest)
      obtain ⟨l₁, l₂, hdecomp, hmin, hfirst⟩ :=
        firstArgminDogs_spec (fun d => get_active_task_count true st d.name)
          (d₁ :: d₂ :: rest) dm hdm
      refine ⟨dm, l₁, l₂, ?_, hdecomp, hmin, hfirst⟩
      have hsel : select_dog true st (d₁ :: d₂ :: rest) =
          Option.map Prod.fst
            (sortByLoad ((d₁ :: d₂ :: rest).map
              (fun d => (d, get_active_task_count true st d.name)))).head? := rfl
      rw [hsel, head_sortByLoad, firstArgmin_map, hdm]
      rfl

/-- Example store for the C5 witness: dog D1 carries two active tasks,
dog D2 none (the "two-dog load balance" scenario). -/
def loadExampleStore : Store :=
  sadd (sadd emptyStore (Key.activeTasks "D1") "t1") (Key.activeTasks "D1") "t2"

/-- Example two-dog roster for the C5 witness. -/
def loadExampleRoster : List DogCfg :=
  [{ name := "D1", email := "d1@example.com" }, { name := "D2", email := "d2@example.com" }]

/-- Witness for C5: the multi-dog branch of `select_dog_ok` applied to the
concrete two-dog roster with loads 2 and 0. -/
theorem select_dog_ok_witness :
    ∃ d l₁ l₂, select_dog true loadExampleStore loadExampleRoster = some d ∧
      loadExampleRoster = l₁ ++ d :: l₂ ∧
      (∀ e ∈ loadExampleRoster,
        get_active_task_count true loadExampleStore d.name ≤
          get_active_task_count true loadExampleStore e.name) ∧
      (∀ e ∈ l₁,
        get_active_task_count true loadExampleStore d.name <
          get_active_task_count true loadExampleStore e.name) :=
  (select_dog_ok true loadExampleStore loadExampleRoster).2 (by decide) rfl

theorem getSet_setVal_self (st : Store) (k : Key) (l : List String) :
    getSet (storeSetVal st k (StoreVal.vset l)) k = l := by
  simp [getSet, storeSetVal_app]

/-- C9: `mark_dog_free` on a task that is not a member of the dog's
active-task set logs the "not in active set" warning and leaves the store
unchanged, and applying `mark_dog_free` twice for the same (dog, task)
yields the same store state as applying it once. -/
theorem mark_dog_free_ok (st : Store) (dogName taskId : String) :
    (taskId ∉ getSet st (Key.activeTasks dogName) →
      mark_dog_free true st dogName taskId = (st, true)) ∧
    (mark_dog_free true (mark_dog_free true st dogName taskId).1 dogName taskId).1 =
      (mark_dog_free true st dogName taskId).1 := by
  constructor
  · intro hmem
    simp [mark_dog_free, sremResult, hmem]
  · by_cases hmem : taskId ∈ getSet st (Key.activeTasks dogName)
    · simp only [mark_dog_free, if_pos rfl, sremResult, hmem, if_true]
      have hfilter : taskId ∉
          getSet (storeSetVal st (Key.activeTasks dogName)
            (StoreVal.vset ((getSet st (Key.activeTasks dogName)).filter
              (fun y => y != taskId)))) (Key.activeTasks dogName) := by
        rw [getSet_setVal_self]
        simp [List.mem_filter]
      simp [hfilter]
    · simp [mark_dog_free, sremResult, hmem]

/-- Example store for the C9 witness: the dog holds one unrelated task. -/
def freeExampleStore : Store :=
  sadd emptyStore (Key.activeTasks "Coregi") "C123_111.222"

/-- Witness for C9: `mark_dog_free_ok` applied at a task id that is not in
the dog's active set. -/
theorem mark_dog_free_ok_witness :
    mark_dog_free true freeExampleStore "Coregi" "C999_888.777" = (freeExampleStore, true) ∧
    (mark_dog_free true
        (mark_dog_free true freeExampleStore "Coregi" "C999_888.777").1
        "Coregi" "C999_888.777").1 =
      (mark_dog_free true freeExampleStore "Coregi" "C999_888.777").1 :=
  ⟨(mark_dog_free_ok freeExampleStore "Coregi" "C999_888.777").1 (by decide),
   (mark_dog_free_ok freeExampleStore "Coregi" "C999_888.777").2⟩

/-! ### Cancellation manager (`apps/worker/src/cancellation.py`) and the
cancelled branch of the worker job (`apps/worker/src/worker_tasks.py`) -/

/-- Embeds `CancellationManager.clear_cancellation` (cancellation.py lines
74-89): `DEL dogwalker:cancel:{task_id}`; a no-op when Redis is
unavailable. -/
def clear_cancellation (redisAvailable : Bool) (st : Store) (taskId : String) : Store :=
  if redisAvailable then storeDel st (Key.cancelFlag taskId) else st

/-- Embeds `CancellationManager.is_cancelled` (cancellation.py lines 33-51):
`EXISTS dogwalker:cancel:{task_id}`; false when Redis is unavailable. -/
def is_cancelled (redisAvailable : Bool) (st : Store) (taskId : String) : Bool :=
  if redisAvailable then (st (Key.cancelFlag taskId)).isSome else false

/-- External side effects of the cancelled branch that are visible outside
the coordination store. -/
inductive ExtStep
  | prBodyUpdated
  | slackCancelPosted
  deriving DecidableEq, Repr

/-- Embeds the try/except block of the `except TaskCancelled` branch
(worker_tasks.py lines 637-734): the PR body update runs only when a PR was
created; the Slack post follows; any exception from either call is caught
and logged (line 733-734).  Returns the external steps that completed and
whether an exception was caught. -/
def cancel_notice_steps (prCreated updateRaises postRaises : Bool) :
    List ExtStep × Bool :=
  if prCreated then
    if updateRaises then ([], true)
    else if postRaises then ([ExtStep.prBodyUpdated], true)
    else ([ExtStep.prBodyUpdated, ExtStep.slackCancelPosted], false)
  else
    if postRaises then ([], true) else ([ExtStep.slackCancelPosted], false)

/-- Result dictionary returned by the cancelled branch
(worker_tasks.py lines 742-748). -/
structure CancelResult where
  status : String
  cancelled_by : String
  phase : String
  pr_url : Option String
  deriving DecidableEq, Repr

/-- Embeds the `except TaskCancelled` branch of `run_coding_task`
(worker_tasks.py lines 624-748): attempt the PR update and the Slack post
inside a try/except, then unconditionally clear the cancellation flag
(line 737), mark the dog free (line 740) and return the "cancelled" result
(lines 742-748). -/
def handle_task_cancelled (st : Store) (dogName taskId cancelledBy phase : String)
    (prUrl : Option String) (updateRaises postRaises : Bool) :
    Store × CancelResult × List ExtStep :=
  let steps := cancel_notice_steps prUrl.isSome updateRaises postRaises
  let st₁ := clear_cancellation true st taskId
  let st₂ := (mark_dog_free true st₁ dogName taskId).1
  (st₂,
   { status := "cancelled", cancelled_by := cancelledBy, phase := phase, pr_url := prUrl },
   steps.1)

/-- C10: the cancelled branch of the worker job always returns a result
with status "cancelled", leaves the cancellation flag cleared and the task
removed from the dog's active-task set, for every combination of
PR-present, PR-update-raises and Slack-post-raises, because the PR update
and the Slack post are wrapped in a try/except that cannot skip the
cleanup. -/
theorem cancellation_branch_ok (st : Store) (dogName taskId cancelledBy phase : String)
    (prUrl : Option String) (updateRaises postRaises : Bool) :
    (handle_task_cancelled st dogName taskId cancelledBy phase prUrl
        updateRaises postRaises).2.1.status = "cancelled" ∧
    (handle_task_cancelled st dogName taskId cancelledBy phase prUrl
        updateRaises postRaises).1 (Key.cancelFlag taskId) = none ∧
    taskId ∉ getSet (handle_task_cancelled st dogName taskId cancelledBy phase prUrl
        updateRaises postRaises).1 (Key.activeTasks dogName) := by
  refine ⟨rfl, ?_, ?_⟩
  · simp only [handle_task_cancelled, mark_dog_free, if_pos rfl, sremResult,
      clear_cancellation]
    by_cases hmem : taskId ∈ getSet (storeDel st (Key.cancelFlag taskId))
        (Key.activeTasks dogName)
    · simp only [hmem, if_true]
      rw [storeSetVal_app]
      simp [storeDel_app]
    · simp [hmem, storeDel_app]
  · simp only [handle_task_cancelled, mark_dog_free, if_pos rfl, sremResult,
      clear_cancellation]
    by_cases hmem : taskId ∈ getSet (storeDel st (Key.cancelFlag taskId))
        (Key.activeTasks dogName)
    · simp only [hmem, if_true]
      rw [getSet_setVal_self]
      simp [List.mem_filter]
    · simp [hmem]

/-! ### Thread binding and thread inbox (C1)

`handle_message` (message.py) reads `dogwalker:thread_tasks:{thread_ts}`
(its only occurrence in the sources, line 59) and appends to
`dogwalker:thread_messages:{thread_ts}` when a binding is present.  The
events below collect every write to the coordination store performed
anywhere in the repository: `mark_dog_busy` in the mention handler
(app_mentioned.py line 183), the cancel-button `HSET`
(cancel_task.py lines 77-87), and the `mark_dog_free` /
`clear_cancellation` calls on the three terminal paths of
`run_coding_task` (worker_tasks.py lines 614, 737, 740, 765). -/

/-- Embeds `handle_message` (message.py lines 22-126): with Redis available,
read the thread binding; when it is absent (or an empty string, which is
falsy in Python) or the message text is blank, ignore the message;
otherwise append it to the thread inbox.  The stored JSON payload is
abstracted to its text field. -/
def handle_message (redisAvailable : Bool) (st : Store) (threadTs text : String) :
    Store :=
  if redisAvailable then
    match st (Key.threadTask threadTs) with
    | some (StoreVal.vstr taskId) =>
      if taskId = "" then st
      else if text.trim = "" then st
      else rpush st (Key.threadMessages threadTs) text
    | _ => st
  else st

/-- Embeds the store write of the cancel-button handler
(cancel_task.py lines 77-87): `HSET dogwalker:cancel:{task_id}` with the
canceller fields (the 3600 s TTL is not modelled). -/
def write_cancellation_flag (redisAvailable : Bool) (st : Store)
    (taskId cancelledBy cancelledById timestamp : String) : Store :=
  if redisAvailable then
    hsetMap st (Key.cancelFlag taskId)
      [("cancelled_by", cancelledBy), ("cancelled_by_id", cancelledById),
       ("timestamp", timestamp)]
  else st

/-- The store-affecting events of the system: a task-starting mention, a
cancel-button click, the three terminal paths of `run_coding_task`, and a
human message posted in a thread. -/
inductive OrchEvent
  | appMention (dogName taskId : String)
  | cancelClick (taskId cancelledBy cancelledById timestamp : String)
  | taskSuccess (dogName taskId : String)
  | taskCancelledDone (dogName taskId : String)
  | taskFailed (dogName taskId : String)
  | threadMessage (threadTs text : String)

/-- The store effect of one event, as performed by the sources. -/
def applyEvent (st : Store) : OrchEvent → Store
  | OrchEvent.appMention dogName taskId => mark_dog_busy true st dogName taskId
  | OrchEvent.cancelClick taskId cb cbid ts =>
      write_cancellation_flag true st taskId cb cbid ts
  | OrchEvent.taskSuccess dogName taskId => (mark_dog_free true st dogName taskId).1
  | OrchEvent.taskCancelledDone dogName taskId =>
      (mark_dog_free true (clear_cancellation true st taskId) dogName taskId).1
  | OrchEvent.taskFailed dogName taskId => (mark_dog_free true st dogName taskId).1
  | OrchEvent.threadMessage threadTs text => handle_message true st threadTs text

/-- Fold the store effects of a list of events. -/
def applyEvents (st : Store) (evs : List OrchEvent) : Store :=
  evs.foldl applyEvent st

/-- The thread-binding and thread-inbox keys are all absent. -/
def ThreadKeysEmpty (st : Store) : Prop :=
  ∀ ts, st (Key.threadTask ts) = none ∧ st (Key.threadMessages ts) = none

theorem getList_eq_of_app_eq {st st' : Store} {k : Key} (h : st k = st' k) :
    getList st k = getList st' k := by
  simp [getList, h]

theorem applyEvent_threadKeysEmpty {st : Store} (e : OrchEvent)
    (h : ThreadKeysEmpty st) : ThreadKeysEmpty (applyEvent st e) := by
  cases e with
  | appMention dogName taskId =>
    intro ts
    have h1 := sadd_app_ne st (Key.activeTasks dogName) (Key.threadTask ts) taskId
      (by simp)
    have h2 := sadd_app_ne st (Key.activeTasks dogName) (Key.threadMessages ts) taskId
      (by simp)
    simp only [applyEvent, mark_dog_busy, if_pos rfl]
    exact ⟨h1.trans (h ts).1, h2.trans (h ts).2⟩
  | cancelClick taskId cb cbid tstamp =>
    intro ts
    have hne1 : Key.threadTask ts ≠ Key.cancelFlag taskId := by simp
    have hne2 : Key.threadMessages ts ≠ Key.cancelFlag taskId := by simp
    simp [applyEvent, write_cancellation_flag, hsetMap, storeSetVal_app, hne1, hne2,
      (h ts).1, (h ts).2]
  | taskSuccess dogName taskId =>
    intro ts
    have h1 := sremResult_app_ne st (Key.activeTasks dogName) (Key.threadTask ts) taskId
      (by simp)
    have h2 := sremResult_app_ne st (Key.activeTasks dogName) (Key.threadMessages ts)
      taskId (by simp)
    simp only [applyEvent, mark_dog_free, if_pos rfl]
    exact ⟨h1.trans (h ts).1, h2.trans (h ts).2⟩
  | taskCancelledDone dogName taskId =>
    intro ts
    have hdel1 : clear_cancellation true st taskId (Key.threadTask ts) =
        st (Key.threadTask ts) := by
      simp [clear_cancellation, storeDel_app]
    have hdel2 : clear_cancellation true st taskId (Key.threadMessages ts) =
        st (Key.threadMessages ts) := by
      simp [clear_cancellation, storeDel_app]
    have h1 := sremResult_app_ne (clear_cancellation true st taskId)
      (Key.activeTasks dogName) (Key.threadTask ts) taskId (by simp)
    have h2 := sremResult_app_ne (clear_cancellation true st taskId)
      (Key.activeTasks dogName) (Key.threadMessages ts) taskId (by simp)
    simp only [applyEvent, mark_dog_free, if_pos rfl]
    exact ⟨(h1.trans hdel1).trans (h ts).1, (h2.trans hdel2).trans (h ts).2⟩
  | taskFailed dogName taskId =>
    intro ts
    have h1 := sremResult_app_ne st (Key.activeTasks dogName) (Key.threadTask ts) taskId
      (by simp)
    have h2 := sremResult_app_ne st (Key.activeTasks dogName) (Key.threadMessages ts)
      taskId (by simp)
    simp only [applyEvent, mark_dog_free, if_pos rfl]
    exact ⟨h1.trans (h ts).1, h2.trans (h ts).2⟩
  | threadMessage threadTs text =>
    have hnone := (h threadTs).1
    simp only [applyEvent, handle_message, if_pos rfl, hnone]
    exact h

theorem applyEvents_threadKeysEmpty {st : Store} (evs : List OrchEvent)
    (h : ThreadKeysEmpty st) : ThreadKeysEmpty (applyEvents st evs) := by
  induction evs generalizing st with
  | nil => exact h
  | cons e rest ih => exact ih (applyEvent_threadKeysEmpty e h)

/-- C1: the thread-binding key `dogwalker:thread_tasks:{thread_ts}` is never
written by any code path in the repository — its only occurrence is the
read in message.py line 59 — so after any sequence of system events starting
from the empty store the binding is absent for every thread (in particular
while a task for that thread is between planning and finalization), and the
thread inbox stays empty: every thread message is ignored. -/
theorem thread_binding_never_written (evs : List OrchEvent) (threadTs : String) :
    applyEvents emptyStore evs (Key.threadTask threadTs) = none ∧
    getList (applyEvents emptyStore evs) (Key.threadMessages threadTs) = [] := by
  have h := applyEvents_threadKeysEmpty evs
    (show ThreadKeysEmpty emptyStore from fun _ => ⟨rfl, rfl⟩) threadTs
  exact ⟨h.1, by simp [getList, h.2]⟩

/-! ### Pipeline phases and cancellation checkpoints (C2)

`run_coding_task` (worker_tasks.py) calls `check_cancellation` at four
points: after the initialization steps (line 294), after the planning steps
(line 410), after the implementation steps (line 444) and after the
self-review steps (line 464).  No checkpoint runs between the testing steps
and the finalization steps. -/

/-- The six pipeline phases. -/
inductive Phase
  | initialization
  | planning
  | implementation
  | selfReview
  | testing
  | finalization
  deriving DecidableEq, Repr

/-- Chronological index of a phase. -/
def phaseIdx : Phase → Nat
  | Phase.initialization => 0
  | Phase.planning => 1
  | Phase.implementation => 2
  | Phase.selfReview => 3
  | Phase.testing => 4
  | Phase.finalization => 5

/-- The phase sequence of `run_coding_task`, each phase paired with whether
a `check_cancellation` call runs immediately after its steps (lines 294,
410, 444, 464; none after testing or finalization). -/
def pipelineSteps : List (Phase × Bool) :=
  [(Phase.initialization, true), (Phase.planning, true), (Phase.implementation, true),
   (Phase.selfReview, true), (Phase.testing, false), (Phase.finalization, false)]

/-- Terminal status of a pipeline run. -/
inductive PipelineStatus
  | done
  | cancelledDuring (p : Phase)
  deriving DecidableEq, Repr

/-- Execute the remaining phases.  `cancelIdx` is the index of the phase
during which the cancellation flag was written; `is_cancelled` returns true
at every checkpoint from the end of that phase on.  Returns the list of
phases entered and the terminal status. -/
def runPhases (cancelIdx : Nat) :
    List (Phase × Bool) → List Phase → List Phase × PipelineStatus
  | [], entered => (entered, PipelineStatus.done)
  | (p, chk) :: rest, entered =>
    let entered' := entered ++ [p]
    if chk = true ∧ cancelIdx ≤ phaseIdx p then
      (entered', PipelineStatus.cancelledDuring p)
    else runPhases cancelIdx rest entered'

/-- Run the pipeline with a cancellation flag written while the pipeline is
in phase `cancelDuring`. -/
def runPipeline (cancelDuring : Phase) : List Phase × PipelineStatus :=
  runPhases (phaseIdx cancelDuring) pipelineSteps []

/-- C2 counterexample: a cancellation flag written while the pipeline is in
the testing phase is never observed — there is no checkpoint between
testing and finalization — so the pipeline enters finalization and
completes instead of transitioning to cancelled. -/
theorem cancel_during_testing_not_observed :
    runPipeline Phase.testing =
      ([Phase.initialization, Phase.planning, Phase.implementation, Phase.selfReview,
        Phase.testing, Phase.finalization], PipelineStatus.done) ∧
    Phase.finalization ∈ (runPipeline Phase.testing).1 := by
  decide

/-- C2 (amended): cancellation checkpoints run between init→planning,
planning→implementation, implementation→self_review and self_review→testing
only; a cancellation flag written while the pipeline is in a phase up to
self_review is observed at the checkpoint ending that phase, the pipeline
transitions directly to cancelled, and no later phase is entered.  There is
no checkpoint between testing and finalization, so a flag written during
testing is not observed (see the counterexample). -/
theorem cancel_observed_before_testing (p : Phase) (h : phaseIdx p ≤ 3) :
    runPipeline p = ((pipelineSteps.map Prod.fst).take (phaseIdx p + 1),
      PipelineStatus.cancelledDuring p) ∧
    ∀ q ∈ (runPipeline p).1, phaseIdx q ≤ phaseIdx p := by
  cases p
  case initialization => exact ⟨by decide, by decide⟩
  case planning => exact ⟨by decide, by decide⟩
  case implementation => exact ⟨by decide, by decide⟩
  case selfReview => exact ⟨by decide, by decide⟩
  case testing => exact absurd h (by decide)
  case finalization => exact absurd h (by decide)

/-- Witness for the amended C2: a flag written during planning is observed
at the planning checkpoint and the pipeline stops there. -/
theorem cancel_observed_before_testing_witness :
    runPipeline Phase.planning = ((pipelineSteps.map Prod.fst).take
      (phaseIdx Phase.planning + 1), PipelineStatus.cancelledDuring Phase.planning) ∧
    ∀ q ∈ (runPipeline Phase.planning).1, phaseIdx q ≤ phaseIdx Phase.planning :=
  cancel_observed_before_testing Phase.planning (by decide)

/-! ### After-screenshots and the compile-hang repair detour (C3)

`capture_after_screenshots` (dog.py lines 1532-1638) guards its repair
detour with `hasattr(self.screenshot_tools, "last_error_type") and
self.screenshot_tools.last_error_type == "compilation_hang"` (line 1557).
The attributes ever assigned on `ScreenshotTools` instances are the six
set in `__init__` (screenshot_tools.py lines 27-34) and the two of them
reassigned in `start_dev_server` (lines 235, 268); `last_error_type` is
assigned nowhere in the repository. -/

/-- Attribute names assigned on `ScreenshotTools` instances anywhere in the
sources. -/
def screenshotToolsAttrs : List String :=
  ["repo_path", "work_dir", "screenshots_dir", "github_client",
   "dev_server_process", "dev_server_port"]

/-- Python `hasattr(self.screenshot_tools, "last_error_type")` as evaluated
at dog.py line 1557. -/
def hasattr_last_error_type : Bool :=
  screenshotToolsAttrs.contains "last_error_type"

/-- The fatal outcomes of `start_dev_server`
(screenshot_tools.py lines 203-455): each makes the function return
`False`. -/
inductive DevServerFailure
  | noCommand
  | npmInstallFailed
  | noPortAvailable
  | compileError
  | compilationHang
  | consecutiveHttpTimeouts
  | silentHang
  | processExit
  | startTimeout
  deriving DecidableEq, Repr

/-- Result of one `start_dev_server` call. -/
inductive StartResult
  | ok
  | failed (kind : DevServerFailure)
  deriving DecidableEq, Repr

/-- Embeds `Dog.capture_after_screenshots` (dog.py lines 1532-1638).
Oracle inputs: the before-screenshot list, the outcome of the first
`start_dev_server(clear_cache=True)` call, whether the repair `run_task`
returns true, the outcome of the retry start, and the screenshots a capture
would produce.  Returns the screenshots together with the number of repair
invocations of the editing agent and the number of retry starts. -/
def capture_after_screenshots (before : List String) (start1 : StartResult)
    (repairSucceeds : Bool) (start2 : StartResult) (captured : List String) :
    List String × Nat × Nat :=
  match before with
  | [] => ([], 0, 0)
  | _ :: _ =>
    match start1 with
    | StartResult.ok => (captured, 0, 0)
    | StartResult.failed kind =>
      if hasattr_last_error_type = true ∧ kind = DevServerFailure.compilationHang then
        if repairSucceeds then
          match start2 with
          | StartResult.ok => (captured, 1, 1)
          | StartResult.failed _ => ([], 1, 1)
        else ([], 1, 0)
      else ([], 0, 0)

/-- C3: the compile-hang repair detour is unreachable.  `last_error_type`
is never assigned on `ScreenshotTools`, so the `hasattr` guard at
dog.py line 1557 is always false and for every dev-server start failure —
including a compilation hang — `capture_after_screenshots` performs zero
repair passes and zero retry starts and returns no screenshots (the
visual-diff step ends without failing the pipeline), contrary to the
claimed one repair pass plus one retry on compile-hang. -/
theorem compile_hang_repair_unreachable (b : String) (rest : List String)
    (kind : DevServerFailure) (repairSucceeds : Bool) (start2 : StartResult)
    (captured : List String) :
    hasattr_last_error_type = false ∧
    capture_after_screenshots (b :: rest) (StartResult.failed kind) repairSucceeds
      start2 captured = ([], 0, 0) := by
  refine ⟨rfl, ?_⟩
  simp [capture_after_screenshots, hasattr_last_error_type, screenshotToolsAttrs]

/-! ### The implementation validation repair loop (C4)

`Dog.run_task` (dog.py lines 338-538): after the editing-agent run, if
`git status` shows no changes the call either succeeds (feedback passes,
`allow_no_changes=True`) or raises; otherwise the validation gate runs
once; on failure the agent is re-invoked exactly once with a repair prompt
carrying the verbatim error output, validation runs exactly once more, and
a second failure raises terminally. -/

/-- The text of the repair prompt before the interpolated
`validation_errors` (dog.py lines 496-507). -/
def fixPromptLead : String :=
  "\nThe changes you made have compilation errors. Please fix them.\n\nVALIDATION ERRORS:\n"

/-- The text of the repair prompt after the interpolated
`validation_errors` (dog.py lines 496-507). -/
def fixPromptTail : String :=
  "\n\nSteps to fix:\n1. Read the error messages above carefully\n2. Fix ALL compilation errors shown\n3. Run the type-check command again to verify fixes work\n4. Do not proceed until all errors are resolved.\n"

/-- Terminal outcomes of `Dog.run_task`. -/
inductive RunTaskOutcome
  | success
  | raisedNoChanges
  | raisedUnfixed
  deriving DecidableEq, Repr

/-- Observable trace of one `Dog.run_task` call: outcome, number of
editing-agent (`coder.run`) invocations, number of validation passes, and
the repair prompt sent to the agent, if any. -/
structure RunTaskTrace where
  outcome : RunTaskOutcome
  agentRuns : Nat
  validationRuns : Nat
  fixPromptSent : Option String
  deriving DecidableEq, Repr

/-- Embeds the post-edit control flow of `Dog.run_task`
(dog.py lines 440-533).  Oracle inputs: whether `git status` was clean
after the first agent run, and the (passed, error-output) results of the
first and second `_validate_changes_compile` passes. -/
def run_task (allow_no_changes gitStatusEmpty : Bool)
    (val1 val2 : Bool × String) : RunTaskTrace :=
  if gitStatusEmpty then
    if allow_no_changes then
      { outcome := RunTaskOutcome.success, agentRuns := 1, validationRuns := 0,
        fixPromptSent := none }
    else
      { outcome := RunTaskOutcome.raisedNoChanges, agentRuns := 1, validationRuns := 0,
        fixPromptSent := none }
  else
    if val1.1 then
      { outcome := RunTaskOutcome.success, agentRuns := 1, validationRuns := 1,
        fixPromptSent := none }
    else
      let fixPrompt := fixPromptLead ++ val1.2 ++ fixPromptTail
      if val2.1 then
        { outcome := RunTaskOutcome.success, agentRuns := 2, validationRuns := 2,
          fixPromptSent := some fixPrompt }
      else
        { outcome := RunTaskOutcome.raisedUnfixed, agentRuns := 2, validationRuns := 2,
          fixPromptSent := some fixPrompt }

/-- C4: when the implementation tree has changes and the first validation
fails, `run_task` re-invokes the editing agent exactly once — for exactly
two agent invocations in total — with a repair prompt containing the
validation error output verbatim, re-validates exactly once, succeeds when
the re-validation passes, and raises terminally (no further repair
attempts) when it fails again. -/
theorem validation_repair_loop_ok (allow_no_changes : Bool)
    (val1 val2 : Bool × String) (hfail : val1.1 = false) :
    (run_task allow_no_changes false val1 val2).agentRuns = 2 ∧
    (run_task allow_no_changes false val1 val2).validationRuns = 2 ∧
    (run_task allow_no_changes false val1 val2).fixPromptSent =
      some (fixPromptLead ++ val1.2 ++ fixPromptTail) ∧
    (∃ pre post, (fixPromptLead ++ val1.2 ++ fixPromptTail).data =
      pre ++ val1.2.data ++ post) ∧
    (val2.1 = true →
      (run_task allow_no_changes false val1 val2).outcome = RunTaskOutcome.success) ∧
    (val2.1 = false →
      (run_task allow_no_changes false val1 val2).outcome = RunTaskOutcome.raisedUnfixed) := by
  obtain ⟨v1, err1⟩ := val1
  obtain ⟨v2, err2⟩ := val2
  simp only at hfail
  subst hfail
  refine ⟨?_, ?_, ?_, ⟨fixPromptLead.data, fixPromptTail.data, by simp⟩, ?_, ?_⟩ <;>
    cases v2 <;> simp [run_task]

/-- Witness for C4: a failing first validation with a concrete TypeScript
error, repaired on the second pass. -/
theorem validation_repair_loop_ok_witness :
    (run_task false false (false, "src/app.ts(3,5): error TS2304") (true, "")).agentRuns = 2 ∧
    (run_task false false (false, "src/app.ts(3,5): error TS2304") (true, "")).validationRuns = 2 ∧
    (run_task false false (false, "src/app.ts(3,5): error TS2304") (true, "")).fixPromptSent =
      some (fixPromptLead ++ "src/app.ts(3,5): error TS2304" ++ fixPromptTail) ∧
    (∃ pre post, (fixPromptLead ++ "src/app.ts(3,5): error TS2304" ++ fixPromptTail).data =
      pre ++ ("src/app.ts(3,5): error TS2304" : String).data ++ post) ∧
    ((true : Bool) = true →
      (run_task false false (false, "src/app.ts(3,5): error TS2304") (true, "")).outcome =
        RunTaskOutcome.success) ∧
    ((true : Bool) = false →
      (run_task false false (false, "src/app.ts(3,5): error TS2304") (true, "")).outcome =
        RunTaskOutcome.raisedUnfixed) :=
  validation_repair_loop_ok false (false, "src/app.ts(3,5): error TS2304") (true, "") rfl

/-! ### URL extraction from the plan (C7)

`ScreenshotTools.extract_urls_from_plan` (screenshot_tools.py lines
771-803) collects quoted route tokens (a regex capturing a slash followed
by word characters, slashes and hyphens, so every token starts with a
slash) and "X page" phrases, filters out
home/main/index, prefixes the page words with `/`, deduplicates and sorts
(`sorted(set(urls))`), inserts `/` at the front when absent, and caps the
result at 5.  `sorted(set(...))` is modelled by `sortedDedup`, which
produces the strictly sorted list of distinct members. -/

/-- Insert into a strictly sorted list, skipping an element already
present. -/
def insertSorted {α : Type} [LinearOrder α] (x : α) : List α → List α
  | [] => [x]
  | y :: ys =>
    if x < y then x :: y :: ys
    else if x = y then y :: ys
    else y :: insertSorted x ys

/-- The strictly sorted list of distinct members: Python's
`sorted(set(l))`. -/
def sortedDedup {α : Type} [LinearOrder α] : List α → List α
  | [] => []
  | x :: xs => insertSorted x (sortedDedup xs)

theorem mem_insertSorted {α : Type} [LinearOrder α] (a x : α) (l : List α) :
    a ∈ insertSorted x l ↔ a = x ∨ a ∈ l := by
  induction l with
  | nil => simp [insertSorted]
  | cons y ys ih =>
    by_cases h1 : x < y
    · simp only [insertSorted, if_pos h1, List.mem_cons]
    · by_cases h2 : x = y
      · simp only [insertSorted, if_neg h1, if_pos h2, List.mem_cons]
        subst h2
        tauto
      · simp only [insertSorted, if_neg h1, if_neg h2, List.mem_cons, ih]
        tauto

theorem pairwise_insertSorted {α : Type} [LinearOrder α] (x : α) (l : List α)
    (h : l.Pairwise (· < ·)) : (insertSorted x l).Pairwise (· < ·) := by
  induction l with
  | nil => simp [insertSorted]
  | cons y ys ih =>
    rcases List.pairwise_cons.mp h with ⟨hy, hys⟩
    by_cases h1 : x < y
    · simp only [insertSorted, if_pos h1]
      refine List.pairwise_cons.mpr ⟨?_, h⟩
      intro b hb
      rcases List.mem_cons.mp hb with rfl | hb
      · exact h1
      · exact lt_trans h1 (hy b hb)
    · by_cases h2 : x = y
      · simp only [insertSorted, if_neg h1, if_pos h2]
        exact h
      · simp only [insertSorted, if_neg h1, if_neg h2]
        refine List.pairwise_cons.mpr ⟨?_, ih hys⟩
        intro b hb
        rcases (mem_insertSorted b x ys).mp hb with rfl | hb
        · exact lt_of_le_of_ne (le_of_not_lt h1) (Ne.symm h2)
        · exact hy b hb

theorem pairwise_sortedDedup {α : Type} [LinearOrder α] (l : List α) :
    (sortedDedup l).Pairwise (· < ·) := by
  induction l with
  | nil => simp [sortedDedup]
  | cons x xs ih => exact pairwise_insertSorted x _ ih

theorem mem_sortedDedup {α : Type} [LinearOrder α] (a : α) (l : List α) :
    a ∈ sortedDedup l ↔ a ∈ l := by
  induction l with
  | nil => simp [sortedDedup]
  | cons x xs ih => simp [sortedDedup, mem_insertSorted, ih]

theorem eq_of_pairwise_lt_mem_iff {α : Type} [LinearOrder α] :
    ∀ l l' : List α, l.Pairwise (· < ·) → l'.Pairwise (· < ·) →
      (∀ a, a ∈ l ↔ a ∈ l') → l = l' := by
  intro l
  induction l with
  | nil =>
    intro l' _ _ hmem
    cases l' with
    | nil => rfl
    | cons y t => exact absurd ((hmem y).mpr (by simp)) (by simp)
  | cons x t ih =>
    intro l' hl hl' hmem
    cases l' with
    | nil => exact absurd ((hmem x).mp (by simp)) (by simp)
    | cons y t2 =>
      rcases List.pairwise_cons.mp hl with ⟨hxt, hpt⟩
      rcases List.pairwise_cons.mp hl' with ⟨hyt2, hpt2⟩
      have hxy : x = y := by
        rcases List.mem_cons.mp ((hmem x).mp (by simp)) with h | h
        · exact h
        · have hyx : y < x := hyt2 x h
          rcases List.mem_cons.mp ((hmem y).mpr (by simp)) with h2 | h2
          · exact absurd (h2 ▸ hyx) (lt_irrefl x)
          · exact absurd (lt_trans hyx (hxt y h2)) (lt_irrefl y)
      subst hxy
      have htmem : ∀ a, a ∈ t ↔ a ∈ t2 := by
        intro a
        constructor
        · intro ha
          rcases List.mem_cons.mp ((hmem a).mp (List.mem_cons_of_mem _ ha)) with h | h
          · subst h
            exact absurd (hxt a ha) (lt_irrefl a)
          · exact h
        · intro ha
          rcases List.mem_cons.mp ((hmem a).mpr (List.mem_cons_of_mem _ ha)) with h | h
          · subst h
            exact absurd (hyt2 a ha) (lt_irrefl a)
          · exact h
      rw [ih t2 hpt hpt2 htmem]

theorem sortedDedup_congr {α : Type} [LinearOrder α] (l l' : List α)
    (h : ∀ a, a ∈ l ↔ a ∈ l') : sortedDedup l = sortedDedup l' :=
  eq_of_pairwise_lt_mem_iff _ _ (pairwise_sortedDedup l) (pairwise_sortedDedup l')
    (fun a => by rw [mem_sortedDedup, mem_sortedDedup]; exact h a)

theorem head?_of_min {α : Type} [LinearOrder α] (l : List α) (x : α)
    (hp : l.Pairwise (· < ·)) (hx : x ∈ l) (hmin : ∀ a ∈ l, x ≤ a) :
    l.head? = some x := by
  cases l with
  | nil => simp at hx
  | cons h t =>
    rcases List.mem_cons.mp hx with rfl | hxt
    · rfl
    · have h1 : h < x := (List.pairwise_cons.mp hp).1 x hxt
      have h2 : x ≤ h := hmin h (by simp)
      exact absurd (lt_of_le_of_lt h2 h1) (lt_irrefl x)

/-- The string `"/"` is at most any string whose first character is `/`. -/
theorem slash_le_of_head_slash {s : String} (hhead : s.data.head? = some '/') :
    "/" ≤ s := by
  by_cases hne : s = "/"
  · subst hne
    exact le_refl _
  · refine le_of_lt ?_
    rw [String.lt_iff_toList_lt]
    cases hd : s.data with
    | nil => simp [hd] at hhead
    | cons c rest =>
      have hc : c = '/' := by
        rw [hd] at hhead
        simpa using hhead
      subst hc
      cases rest with
      | nil => exact absurd (String.toList_inj.mp (by simp [String.toList, hd])) hne
      | cons c2 t =>
        simp only [String.toList, hd]
        exact List.Lex.cons List.Lex.nil

/-- The final lines of `extract_urls_from_plan`
(screenshot_tools.py lines 796-803): `sorted(set(urls))`, insert `/` at
the front when absent, cap at 5. -/
def finalizeUrls (base : List String) : List String :=
  (if sortedDedup base = [] ∨ "/" ∉ sortedDedup base
   then "/" :: sortedDedup base else sortedDedup base).take 5

/-- Embeds `ScreenshotTools.extract_urls_from_plan`
(screenshot_tools.py lines 771-803) at the level of the tokens found by
the two regex scans: `route_patterns` are the quoted path tokens (each
starts with `/` by the shape of the regex) and `page_refs` are the words
captured from "X page" phrases, filtered against home, main and index and
prefixed with `/`. -/
def extract_urls_from_plan (route_patterns page_refs : List String) : List String :=
  finalizeUrls (route_patterns ++ (page_refs.filter
    (fun p => !(p == "home" || p == "main" || p == "index"))).map (fun p => "/" ++ p))

theorem finalizeUrls_props (base : List String)
    (hbase : ∀ t ∈ base, t.data.head? = some '/') :
    (finalizeUrls base).Nodup ∧ (finalizeUrls base).length ≤ 5 ∧
    (finalizeUrls base).head? = some "/" := by
  have hsorted := pairwise_sortedDedup (α := String) base
  have hmin : ∀ a ∈ sortedDedup base, "/" ≤ a := fun a ha =>
    slash_le_of_head_slash (hbase a ((mem_sortedDedup a base).mp ha))
  by_cases hc : sortedDedup base = [] ∨ "/" ∉ sortedDedup base
  · have hpw : ("/" :: sortedDedup base).Pairwise (· < ·) := by
      refine List.pairwise_cons.mpr ⟨?_, hsorted⟩
      intro b hb
      have hne : b ≠ "/" := by
        intro hbeq
        subst hbeq
        rcases hc with hc | hc
        · rw [hc] at hb
          simp at hb
        · exact hc hb
      exact lt_of_le_of_ne (hmin b hb) (Ne.symm hne)
    have hfu : finalizeUrls base = ("/" :: sortedDedup base).take 5 := by
      simp only [finalizeUrls, if_pos hc]
    refine ⟨?_, ?_, ?_⟩
    · rw [hfu]
      exact (hpw.imp ne_of_lt).sublist (List.take_sublist 5 _)
    · rw [hfu]
      exact List.length_take_le 5 _
    · rw [hfu]
      rfl
  · have hfu : finalizeUrls base = (sortedDedup base).take 5 := by
      simp only [finalizeUrls, if_neg hc]
    push_neg at hc
    obtain ⟨hne, hmem⟩ := hc
    refine ⟨?_, ?_, ?_⟩
    · rw [hfu]
      exact (hsorted.imp ne_of_lt).sublist (List.take_sublist 5 _)
    · rw [hfu]
      exact List.length_take_le 5 _
    · rw [hfu]
      have hhd := head?_of_min _ _ hsorted hmem hmin
      cases hl : sortedDedup base with
      | nil => exact absurd hl hne
      | cons hd tl =>
        rw [hl] at hhd
        have : hd = "/" := by simpa using hhd
        subst this
        rfl

/-- C7: at the token level, the URL extractor returns a list with no
duplicates, of length at most 5, whose first element is `"/"`; and adding a
duplicate occurrence of a route token already present leaves the result
unchanged. -/
theorem extract_urls_ok (route_patterns page_refs : List String)
    (h : ∀ t ∈ route_patterns, t.data.head? = some '/') :
    (extract_urls_from_plan route_patterns page_refs).Nodup ∧
    (extract_urls_from_plan route_patterns page_refs).length ≤ 5 ∧
    (extract_urls_from_plan route_patterns page_refs).head? = some "/" ∧
    (∀ t ∈ route_patterns,
      extract_urls_from_plan (t :: route_patterns) page_refs =
        extract_urls_from_plan route_patterns page_refs) := by
  have hbase : ∀ t ∈ route_patterns ++ (page_refs.filter
      (fun p => !(p == "home" || p == "main" || p == "index"))).map (fun p => "/" ++ p),
      t.data.head? = some '/' := by
    intro t ht
    rcases List.mem_append.mp ht with h1 | h1
    · exact h t h1
    · rcases List.mem_map.mp h1 with ⟨p, _, rfl⟩
      simp
  obtain ⟨hnd, hlen, hhd⟩ := finalizeUrls_props _ hbase
  refine ⟨hnd, hlen, hhd, ?_⟩
  intro t ht
  have hcongr : sortedDedup (t :: (route_patterns ++ (page_refs.filter
      (fun p => !(p == "home" || p == "main" || p == "index"))).map (fun p => "/" ++ p))) =
      sortedDedup (route_patterns ++ (page_refs.filter
      (fun p => !(p == "home" || p == "main" || p == "index"))).map (fun p => "/" ++ p)) := by
    apply sortedDedup_congr
    intro a
    constructor
    · intro ha
      rcases List.mem_cons.mp ha with rfl | ha
      · exact List.mem_append.mpr (Or.inl ht)
      · exact ha
    · exact List.mem_cons_of_mem t
  show finalizeUrls _ = finalizeUrls _
  simp only [finalizeUrls, List.cons_append, hcongr]

/-- Witness for C7: concrete route tokens (with `/` present and a
duplicate-prone token) and page words including a filtered one. -/
theorem extract_urls_ok_witness :
    (extract_urls_from_plan ["/about", "/"] ["pricing", "home"]).Nodup ∧
    (extract_urls_from_plan ["/about", "/"] ["pricing", "home"]).length ≤ 5 ∧
    (extract_urls_from_plan ["/about", "/"] ["pricing", "home"]).head? = some "/" ∧
    (∀ t ∈ (["/about", "/"] : List String),
      extract_urls_from_plan (t :: ["/about", "/"]) ["pricing", "home"] =
        extract_urls_from_plan ["/about", "/"] ["pricing", "home"]) :=
  extract_urls_ok ["/about", "/"] ["pricing", "home"] (by decide)

/-! ### PR title construction and safety truncation (C8)

`run_coding_task` builds the PR title (worker_tasks.py lines 337-351):
prepend `"[Dogwalker] "`; if the result exceeds 70 characters, re-cut the
generated text to the available width at a word boundary with
`pr_title_text[:available].rsplit(' ', 1)[0]` and re-prepend the prefix.
Characters are modelled as `List Char` (Python `len` counts code
points). -/

/-- The fixed lead-in `"[Dogwalker] "` (worker_tasks.py line 338). -/
def titleLead : List Char := "[Dogwalker] ".data

/-- Python `s.rsplit(' ', 1)[0]`: everything before the last space, or the
whole string when it has no space. -/
def rsplitFirstPart (s : List Char) : List Char :=
  if ' ' ∈ s then (((s.reverse).dropWhile (fun c => c ≠ ' ')).drop 1).reverse
  else s

/-- Embeds the title construction and the safety truncation of
`run_coding_task` (worker_tasks.py lines 341-349). -/
def mk_pr_title (pr_title_text : List Char) : List Char :=
  let pr_title := titleLead ++ pr_title_text
  if 70 < pr_title.length then
    titleLead ++ rsplitFirstPart (pr_title_text.take (70 - titleLead.length))
  else pr_title

theorem length_dropWhile_le (p : Char → Bool) (l : List Char) :
    (l.dropWhile p).length ≤ l.length := by
  induction l with
  | nil => simp
  | cons x xs ih =>
    by_cases h : p x <;> simp [List.dropWhile_cons, h] <;> omega

theorem rsplitFirstPart_length_le (s : List Char) :
    (rsplitFirstPart s).length ≤ s.length := by
  unfold rsplitFirstPart
  split
  · simp only [List.length_reverse, List.length_drop]
    have h := length_dropWhile_le (fun c => c ≠ ' ') s.reverse
    simp only [List.length_reverse] at h
    omega
  · exact le_refl _

/-- C8: for every generated title text — spaces or not — the final PR title
built from the `"[Dogwalker] "` lead-in is at most 70 characters long after
the safety truncation. -/
theorem pr_title_length_le (pr_title_text : List Char) :
    (mk_pr_title pr_title_text).length ≤ 70 := by
  unfold mk_pr_title
  by_cases h : 70 < (titleLead ++ pr_title_text).length
  · rw [if_pos h]
    have h1 : (rsplitFirstPart (pr_title_text.take (70 - titleLead.length))).length ≤
        70 - titleLead.length :=
      le_trans (rsplitFirstPart_length_le _) (List.length_take_le _ _)
    have h2 : titleLead.length = 12 := by decide
    simp only [List.length_append]
    omega
  · rw [if_neg h]
    omega

/-! ### Cost ledger (C6)

`Dog` tracks spend in `self.total_cost` and `self.cost_breakdown`
(dog.py lines 52-63).  The mutation sites are `call_claude_api`
(lines 126-137: add the computed cost to the total and to the category,
creating the category when absent) and the three Aider cost blocks
(lines 524-529, 899-903, 990-994: add `coder.total_cost` to the total and
to the implementation, self-review or testing category).  Monetary floats
are modelled as rationals. -/

/-- Per-million-token prices of one model (dog.py lines 17-22). -/
structure ModelPricing where
  input : ℚ
  output : ℚ
  deriving DecidableEq

/-- The static price table `Dog.MODEL_PRICING` (dog.py lines 17-22). -/
def MODEL_PRICING : List (String × ModelPricing) :=
  [("claude-sonnet-4-20250514", { input := 3, output := 15 }),
   ("claude-3-5-sonnet-20241022", { input := 3, output := 15 }),
   ("claude-3-5-haiku-20241022", { input := 4/5, output := 4 })]

/-- Price-table lookup (`self.MODEL_PRICING.get(model_name)`). -/
def lookupPricing : List (String × ModelPricing) → String → Option ModelPricing
  | [], _ => none
  | (k, v) :: rest, m => if k = m then some v else lookupPricing rest m

/-- Pricing for a model with the Sonnet fallback for unknown models
(dog.py lines 77-80). -/
def pricingFor (model_name : String) : ModelPricing :=
  match lookupPricing MODEL_PRICING model_name with
  | some p => p
  | none => { input := 3, output := 15 }

/-- Embeds `Dog._calculate_cost` (dog.py lines 65-90). -/
def calculate_cost (input_tokens output_tokens : Nat) (model_name : String) : ℚ :=
  (input_tokens : ℚ) / 1000000 * (pricingFor model_name).input +
    (output_tokens : ℚ) / 1000000 * (pricingFor model_name).output

theorem pricingFor_cases (m : String) :
    pricingFor m = { input := 3, output := 15 } ∨
    pricingFor m = { input := 4/5, output := 4 } := by
  simp only [pricingFor, MODEL_PRICING, lookupPricing]
  split_ifs <;> simp

theorem calculate_cost_nonneg (input_tokens output_tokens : Nat) (m : String) :
    0 ≤ calculate_cost input_tokens output_tokens m := by
  have hin : (0 : ℚ) ≤ (input_tokens : ℚ) / 1000000 := by positivity
  have hout : (0 : ℚ) ≤ (output_tokens : ℚ) / 1000000 := by positivity
  have hp : 0 ≤ (pricingFor m).input ∧ 0 ≤ (pricingFor m).output := by
    rcases pricingFor_cases m with h | h <;> rw [h] <;> constructor <;> norm_num
  exact add_nonneg (mul_nonneg hin hp.1) (mul_nonneg hout hp.2)

/-- The in-memory cost ledger of a `Dog` (dog.py lines 52-63). -/
structure CostLedger where
  total_cost : ℚ
  cost_breakdown : List (String × ℚ)
  deriving DecidableEq

/-- The initial ledger built in `Dog.__init__` (dog.py lines 52-63). -/
def initialLedger : CostLedger :=
  { total_cost := 0,
    cost_breakdown :=
      [("pr_title", 0), ("plan_generation", 0), ("draft_pr_description", 0),
       ("implementation", 0), ("self_review", 0), ("testing", 0),
       ("critical_review", 0), ("final_pr_description", 0)] }

/-- `self.cost_breakdown[category] += cost` with creation of an absent
category (dog.py lines 133-137); new keys are appended, as Python dicts
preserve insertion order. -/
def addToCategory : List (String × ℚ) → String → ℚ → List (String × ℚ)
  | [], cat, c => [(cat, c)]
  | (k, v) :: rest, cat, c =>
    if k = cat then (k, v + c) :: rest else (k, v) :: addToCategory rest cat c

/-- The value recorded for a category, 0 when the category is absent. -/
def categoryValue : List (String × ℚ) → String → ℚ
  | [], _ => 0
  | (k, v) :: rest, cat => if k = cat then v else categoryValue rest cat

/-- Sum of the per-category breakdown values. -/
def breakdownTotal (b : List (String × ℚ)) : ℚ := (b.map Prod.snd).sum

/-- One mutation of the ledger: a direct API call (cost computed by
`_calculate_cost`) or an Aider cost block with a cost reported by the
coder. -/
inductive LedgerOp
  | apiCall (category : String) (input_tokens output_tokens : Nat) (model_name : String)
  | aiderCost (category : String) (cost : ℚ)

/-- Category touched by an operation. -/
def opCategory : LedgerOp → String
  | LedgerOp.apiCall cat _ _ _ => cat
  | LedgerOp.aiderCost cat _ => cat

/-- Amount added by an operation. -/
def opCost : LedgerOp → ℚ
  | LedgerOp.apiCall _ it ot m => calculate_cost it ot m
  | LedgerOp.aiderCost _ c => c

/-- Aider-reported costs are nonnegative (they are sums of API prices);
this is the assumption under which monotonicity is stated. -/
def opNonneg : LedgerOp → Prop
  | LedgerOp.apiCall _ _ _ _ => True
  | LedgerOp.aiderCost _ c => 0 ≤ c

/-- Apply one mutation: the amount is added to the total and to exactly one
category (dog.py lines 132-137, 527-528, 901-902, 992-993). -/
def applyLedgerOp (L : CostLedger) (op : LedgerOp) : CostLedger :=
  { total_cost := L.total_cost + opCost op,
    cost_breakdown := addToCategory L.cost_breakdown (opCategory op) (opCost op) }

/-- Apply a sequence of mutations in order. -/
def applyLedgerOps (L : CostLedger) (ops : List LedgerOp) : CostLedger :=
  ops.foldl applyLedgerOp L

theorem breakdownTotal_addToCategory (b : List (String × ℚ)) (cat : String) (c : ℚ) :
    breakdownTotal (addToCategory b cat c) = breakdownTotal b + c := by
  induction b with
  | nil => simp [addToCategory, breakdownTotal]
  | cons kv rest ih =>
    obtain ⟨k, v⟩ := kv
    by_cases h : k = cat
    · simp [addToCategory, h, breakdownTotal]
      ring
    · simp [addToCategory, h, breakdownTotal] at ih ⊢
      rw [ih]
      ring

theorem categoryValue_addToCategory_self (b : List (String × ℚ)) (cat : String) (c : ℚ) :
    categoryValue (addToCategory b cat c) cat = categoryValue b cat + c := by
  induction b with
  | nil => simp [addToCategory, categoryValue]
  | cons kv rest ih =>
    obtain ⟨k, v⟩ := kv
    by_cases h : k = cat
    · simp [addToCategory, h, categoryValue]
    · simp [addToCategory, h, categoryValue, ih]

theorem categoryValue_addToCategory_ne (b : List (String × ℚ)) (cat cat' : String)
    (c : ℚ) (h : cat' ≠ cat) :
    categoryValue (addToCategory b cat c) cat' = categoryValue b cat' := by
  have hne : cat ≠ cat' := Ne.symm h
  induction b with
  | nil => simp [addToCategory, categoryValue, hne]
  | cons kv rest ih =>
    obtain ⟨k, v⟩ := kv
    by_cases hk : k = cat
    · subst hk
      simp [addToCategory, categoryValue, hne]
    · by_cases hk2 : k = cat'
      · simp [addToCategory, hk, categoryValue, hk2, hne, h]
      · simp [addToCategory, hk, categoryValue, hk2, ih]

theorem opCost_nonneg (op : LedgerOp) (h : opNonneg op) : 0 ≤ opCost op := by
  cases op with
  | apiCall cat it ot m => exact calculate_cost_nonneg it ot m
  | aiderCost cat c => exact h

theorem applyLedgerOps_inv (ops : List LedgerOp) (L : CostLedger)
    (h : L.total_cost = breakdownTotal L.cost_breakdown) :
    (applyLedgerOps L ops).total_cost =
      breakdownTotal (applyLedgerOps L ops).cost_breakdown := by
  induction ops generalizing L with
  | nil => exact h
  | cons op rest ih =>
    refine ih (applyLedgerOp L op) ?_
    simp [applyLedgerOp, breakdownTotal_addToCategory, h]

theorem categoryValue_applyLedgerOp_le (L : CostLedger) (op : LedgerOp) (cat : String)
    (h : 0 ≤ opCost op) :
    categoryValue L.cost_breakdown cat ≤
      categoryValue (applyLedgerOp L op).cost_breakdown cat := by
  by_cases hc : cat = opCategory op
  · subst hc
    simp only [applyLedgerOp, categoryValue_addToCategory_self]
    linarith
  · simp only [applyLedgerOp, categoryValue_addToCategory_ne _ _ _ _ hc]
    exact le_refl _

/-- C6: starting from the initial ledger, after any prefix of any sequence
of nonnegative ledger mutations the total equals the sum of the breakdown
values, each category's value never decreases from one step to the next,
and each single mutation adds its amount to the total and to exactly its
own category, leaving every other category unchanged. -/
theorem cost_ledger_ok (ops : List LedgerOp) (h : ∀ op ∈ ops, opNonneg op) :
    (∀ k, (applyLedgerOps initialLedger (ops.take k)).total_cost =
      breakdownTotal (applyLedgerOps initialLedger (ops.take k)).cost_breakdown) ∧
    (∀ k cat,
      categoryValue (applyLedgerOps initialLedger (ops.take k)).cost_breakdown cat ≤
        categoryValue (applyLedgerOps initialLedger (ops.take (k+1))).cost_breakdown cat) ∧
    (∀ L op, (applyLedgerOp L op).total_cost = L.total_cost + opCost op ∧
      categoryValue (applyLedgerOp L op).cost_breakdown (opCategory op) =
        categoryValue L.cost_breakdown (opCategory op) + opCost op ∧
      (∀ cat, cat ≠ opCategory op →
        categoryValue (applyLedgerOp L op).cost_breakdown cat =
          categoryValue L.cost_breakdown cat)) := by
  refine ⟨?_, ?_, ?_⟩
  · intro k
    refine applyLedgerOps_inv _ _ ?_
    norm_num [initialLedger, breakdownTotal]
  · intro k cat
    by_cases hk : k < ops.length
    · rw [List.take_succ, List.getElem?_eq_getElem hk]
      have htl : (some ops[k]).toList = [ops[k]] := rfl
      rw [htl]
      have happ : applyLedgerOps initialLedger (ops.take k ++ [ops[k]]) =
          applyLedgerOp (applyLedgerOps initialLedger (ops.take k)) ops[k] := by
        simp only [applyLedgerOps, List.foldl_append, List.foldl_cons, List.foldl_nil]
      rw [happ]
      exact categoryValue_applyLedgerOp_le _ _ _
        (opCost_nonneg _ (h _ (List.getElem_mem hk)))
    · have hlen : ops.length ≤ k := Nat.le_of_not_lt hk
      rw [List.take_of_length_le hlen, List.take_of_length_le (Nat.le_succ_of_le hlen)]
  · intro L op
    refine ⟨rfl, ?_, ?_⟩
    · simp [applyLedgerOp, categoryValue_addToCategory_self]
    · intro cat hcat
      simp [applyLedgerOp, categoryValue_addToCategory_ne _ _ _ _ hcat]

/-- Example operation sequence for the C6 witness: two API calls (one to an
unknown category and an unknown model) and one Aider cost block. -/
def ledgerOpsExample : List LedgerOp :=
  [LedgerOp.apiCall "pr_title" 1000 200 "claude-3-5-haiku-20241022",
   LedgerOp.aiderCost "implementation" (3/100),
   LedgerOp.apiCall "web_fetch" 50 10 "unknown-model"]

/-- Witness for C6: `cost_ledger_ok` applied to the concrete operation
sequence. -/
theorem cost_ledger_ok_witness :
    (∀ k, (applyLedgerOps initialLedger (ledgerOpsExample.take k)).total_cost =
      breakdownTotal (applyLedgerOps initialLedger (ledgerOpsExample.take k)).cost_breakdown) ∧
    (∀ k cat,
      categoryValue (applyLedgerOps initialLedger
          (ledgerOpsExample.take k)).cost_breakdown cat ≤
        categoryValue (applyLedgerOps initialLedger
          (ledgerOpsExample.take (k+1))).cost_breakdown cat) ∧
    (∀ L op, (applyLedgerOp L op).total_cost = L.total_cost + opCost op ∧
      categoryValue (applyLedgerOp L op).cost_breakdown (opCategory op) =
        categoryValue L.cost_breakdown (opCategory op) + opCost op ∧
      (∀ cat, cat ≠ opCategory op →
        categoryValue (applyLedgerOp L op).cost_breakdown cat =
          categoryValue L.cost_breakdown cat)) :=
  cost_ledger_ok ledgerOpsExample (by
    intro op hop
    fin_cases hop <;> simp [opNonneg] <;> norm_num)

end Dogwalker
